import Mathlib

/-!
Verification of the argument-marshalling routine
`Java_com_sillytavern_apk_MainActivity_startNodeWithArguments`
(src/android/app/src/main/cpp/native-lib.cpp).

The routine receives a Java string array, measures the UTF byte length of
every element (size pass), allocates one zero-initialized buffer of
`Σ (length_i + 1)` bytes with `calloc`, copies every element into the buffer
followed by a terminating 0 byte while recording the slot start addresses in
a local `argv` array (copy pass), calls `node::Start(argument_count, argv)`,
frees the buffer and returns `node::Start`'s result.

Embedding choices:
* A converted Java string (`GetStringUTFChars`) is modelled as its byte list
  (`List Nat`); JNI's modified UTF-8 yields no interior 0 bytes, which is the
  well-formedness predicate `wfArg`.
* The packed buffer is a `List Nat` of bytes; pointers into it are offsets.
* `node::Start` is an oracle `Nat → List (List Nat) → Int` receiving the
  count and the null-terminated strings readable at the recorded offsets.
* For error-path claims, `GetStringUTFChars` becomes an oracle
  `Nat → Option (List Nat)` (`none` = JNI returned `nullptr`) and the single
  `calloc` is an oracle boolean (`false` = `calloc` returned `nullptr`); the
  routine `run` also emits the trace of completed phases, with undefined
  behaviour (dereferencing a null pointer) modelled as the `crash` outcome.
-/

namespace NativeLib

/-- A byte of a converted argument string is nonzero (JNI modified UTF-8
never produces an interior 0 byte) and fits in one byte. -/
def wfArg (a : List Nat) : Prop := ∀ b ∈ a, 0 < b ∧ b < 256

/-- All arguments of a sequence are well-formed. -/
def wfArgs (args : List (List Nat)) : Prop := ∀ a ∈ args, wfArg a

instance (a : List Nat) : Decidable (wfArg a) :=
  show Decidable (∀ b ∈ a, 0 < b ∧ b < 256) from inferInstance

instance (args : List (List Nat)) : Decidable (wfArgs args) :=
  show Decidable (∀ a ∈ args, wfArg a) from inferInstance

/-- `strlen` on the C string whose content bytes are `a` (the string stored
by `GetStringUTFChars` is `a` followed by a terminating 0): the number of
bytes before the first 0. -/
def cstrlen (a : List Nat) : Nat := (a.takeWhile (fun b => b != 0)).length

/-- The size pass: `c_arguments_size`, the loop accumulating
`strlen(arg_chars) + 1` over the argument array, in array order. -/
def c_arguments_size (args : List (List Nat)) : Nat :=
  args.foldl (fun acc a => acc + (cstrlen a + 1)) 0

/-- `memcpy(buf + pos, src, src.length)`: overwrite `src.length` bytes of
`buf` starting at offset `pos`. -/
def memcpy (buf : List Nat) (pos : Nat) (src : List Nat) : List Nat :=
  buf.take pos ++ src ++ buf.drop (pos + src.length)

/-- `buf[pos] = b`: store one byte. -/
def setByte (buf : List Nat) (pos : Nat) (b : Nat) : List Nat := buf.set pos b

/-- The copy pass loop body over the remaining arguments: `current` is the
write cursor.  Each iteration performs `memcpy(current, arg_chars,
arg_length)` with `arg_length = strlen(arg_chars)`, stores the terminator
`current[arg_length] = 0`, records `argv[i] = current`, and advances
`current += arg_length + 1`.  Returns the final buffer and the recorded
offsets. -/
def copyLoop : List (List Nat) → List Nat → Nat → List Nat × List Nat
  | [], buf, _ => (buf, [])
  | a :: rest, buf, cur =>
    let len := cstrlen a
    let buf2 := setByte (memcpy buf cur (a.take len)) (cur + len) 0
    let r := copyLoop rest buf2 (cur + len + 1)
    (r.1, cur :: r.2)

/-- The zero-initialized buffer returned by
`calloc(c_arguments_size, sizeof(char))` when allocation succeeds. -/
def args_buffer (args : List (List Nat)) : List Nat :=
  List.replicate (c_arguments_size args) 0

/-- The whole marshalling on the success path: run the copy pass over the
freshly allocated buffer from cursor 0; yields the packed buffer and the
`argv` offsets. -/
def marshal (args : List (List Nat)) : List Nat × List Nat :=
  copyLoop args (args_buffer args) 0

/-- Read the null-terminated byte string starting at offset `off` of the
buffer (what the callee sees through `argv[i]`). -/
def readCString (buf : List Nat) (off : Nat) : List Nat :=
  (buf.drop off).takeWhile (fun b => b != 0)

/-- `startNodeWithArguments` on the success path: marshal, then call
`node::Start` (oracle `ns`) with the count and the strings at the recorded
offsets, returning its result unchanged. -/
def startNodeWithArguments (ns : Nat → List (List Nat) → Int)
    (args : List (List Nat)) : Int :=
  let r := marshal args
  ns args.length (r.2.map (readCString r.1))

/-! ### Specification-side closed forms used to reason about the loops -/

/-- The bytes a single copy-pass iteration writes for argument `a`:
`strlen` many bytes of `a` then the terminator. -/
def slot (a : List Nat) : List Nat := a.take (cstrlen a) ++ [0]

/-- Concatenation of all slots in order: the final packed buffer content. -/
def argsFlat (args : List (List Nat)) : List Nat :=
  (args.map slot).flatten

/-- Structural form of the total size `Σ (strlen_i + 1)`. -/
def sizeFrom : List (List Nat) → Nat
  | [] => 0
  | a :: rest => (cstrlen a + 1) + sizeFrom rest

/-- The offsets the copy pass records when started at cursor `cur`. -/
def offsets : List (List Nat) → Nat → List Nat
  | [], _ => []
  | a :: rest, cur => cur :: offsets rest (cur + (cstrlen a + 1))

/-- The value of the write cursor `current` after the copy pass has
processed all arguments, starting from `cur`: each iteration performs
`current += arg_length + 1`. -/
def finalCursor : List (List Nat) → Nat → Nat
  | [], cur => cur
  | a :: rest, cur => finalCursor rest (cur + (cstrlen a + 1))

/-! ### Trace model of one whole execution, with fallible external calls

The routine as written never tests the results of `GetStringUTFChars` or
`calloc`.  To settle the error-handling claims these two external calls
become oracles, and the execution records which phases completed.  Passing a
null pointer to `strlen` / `memcpy` / a null store is undefined behaviour at
the C level, modelled as the distinct outcome `Outcome.crash`. -/

/-- A phase of the routine that was reached:
`sized` = the size loop finished, `allocated` = the `calloc` call ran,
`copied` = the copy loop finished, `invoked` = `node::Start` was called,
`released` = `free(args_buffer)` ran. -/
inductive Event
  | sized
  | allocated
  | copied
  | invoked
  | released
deriving DecidableEq, Repr

/-- Result of one execution: a normal return of `jint` value `r`, or
undefined behaviour (a null-pointer dereference) reached. -/
inductive Outcome
  | ok (r : Int)
  | crash
deriving DecidableEq, Repr

/-- The canonical complete phase trace of the routine. -/
def fullTrace : List Event :=
  [Event.sized, Event.allocated, Event.copied, Event.invoked, Event.released]

/-- The `GetStringUTFChars` oracle of an argument array: element `i`
converts to its byte list, indices past the end yield nothing. -/
def convOf (args : List (List Nat)) : Nat → Option (List Nat) :=
  fun i => args[i]?

/-- The size loop with a fallible `GetStringUTFChars` (oracle `conv`) over
the listed indices: `none` means the loop called `strlen(nullptr)`
(undefined behaviour); otherwise the accumulated `Σ (strlen_i + 1)`. -/
def sizeGo (conv : Nat → Option (List Nat)) : List Nat → Nat → Option Nat
  | [], acc => some acc
  | i :: rest, acc =>
    match conv i with
    | none => none
    | some a => sizeGo conv rest (acc + (cstrlen a + 1))

/-- The copy loop with a fallible `GetStringUTFChars`: `none` means an
iteration dereferenced a null `arg_chars`; otherwise the final buffer and
the recorded offsets, as in `copyLoop`. -/
def copyGo (conv : Nat → Option (List Nat)) :
    List Nat → List Nat → Nat → Option (List Nat × List Nat)
  | [], buf, _ => some (buf, [])
  | i :: rest, buf, cur =>
    match conv i with
    | none => none
    | some a =>
      let len := cstrlen a
      let buf2 := setByte (memcpy buf cur (a.take len)) (cur + len) 0
      match copyGo conv rest buf2 (cur + len + 1) with
      | none => none
      | some r => some (r.1, cur :: r.2)

/-- One whole execution of `startNodeWithArguments` for an array of `n`
Java strings.  `conv i` is what `GetStringUTFChars` returns for element `i`
(the code checks neither it nor `calloc`); `allocOk` is whether `calloc`
returned a non-null buffer; `ns` is `node::Start`.  Returns the outcome and
the trace of completed phases:
* a failed conversion crashes the size loop at `strlen(nullptr)`;
* a failed allocation is not detected — with `n > 0` the first copy
  iteration writes through the null buffer pointer and crashes, with
  `n = 0` the loop body never runs and execution continues to
  `node::Start(0, argv)` and `free(nullptr)`;
* otherwise `node::Start` receives the count and the strings at the
  recorded offsets, the buffer is freed, and its result is returned. -/
def run (conv : Nat → Option (List Nat)) (allocOk : Bool)
    (ns : Nat → List (List Nat) → Int) (n : Nat) : Outcome × List Event :=
  match sizeGo conv (List.range n) 0 with
  | none => (Outcome.crash, [])
  | some total =>
    if allocOk then
      match copyGo conv (List.range n) (List.replicate total 0) 0 with
      | none => (Outcome.crash, [Event.sized, Event.allocated])
      | some r =>
        (Outcome.ok (ns n (r.2.map (readCString r.1))), fullTrace)
    else
      if n = 0 then (Outcome.ok (ns 0 []), fullTrace)
      else (Outcome.crash, [Event.sized, Event.allocated])

/-! ### Basic facts about `strlen`, slots and sizes -/

lemma cstrlen_le (a : List Nat) : cstrlen a ≤ a.length :=
  (List.takeWhile_sublist _).length_le

lemma takeWhile_eq_self_of_wf {a : List Nat} (h : wfArg a) :
    a.takeWhile (fun b => b != 0) = a := by
  rw [List.takeWhile_eq_self_iff]
  intro b hb
  have hb0 := (h b hb).1
  simp only [bne_iff_ne, ne_eq]
  omega

lemma cstrlen_of_wf {a : List Nat} (h : wfArg a) : cstrlen a = a.length := by
  rw [cstrlen, takeWhile_eq_self_of_wf h]

lemma slot_of_wf {a : List Nat} (h : wfArg a) : slot a = a ++ [0] := by
  rw [slot, cstrlen_of_wf h, List.take_length]

lemma slot_length (a : List Nat) : (slot a).length = cstrlen a + 1 := by
  have := cstrlen_le a
  simp only [slot, List.length_append, List.length_take, List.length_cons,
    List.length_nil]
  omega

lemma sizeFrom_append (xs ys : List (List Nat)) :
    sizeFrom (xs ++ ys) = sizeFrom xs + sizeFrom ys := by
  induction xs with
  | nil => simp [sizeFrom]
  | cons a t ih =>
    rw [List.cons_append,
      show sizeFrom (a :: (t ++ ys)) = (cstrlen a + 1) + sizeFrom (t ++ ys) from rfl,
      ih, show sizeFrom (a :: t) = (cstrlen a + 1) + sizeFrom t from rfl]
    omega

lemma argsFlat_cons (a : List Nat) (rest : List (List Nat)) :
    argsFlat (a :: rest) = slot a ++ argsFlat rest := by
  simp [argsFlat]

lemma argsFlat_length (args : List (List Nat)) :
    (argsFlat args).length = sizeFrom args := by
  induction args with
  | nil => rfl
  | cons a t ih => simp [argsFlat_cons, slot_length, sizeFrom, ih]

lemma foldl_size (args : List (List Nat)) : ∀ acc : Nat,
    args.foldl (fun acc a => acc + (cstrlen a + 1)) acc = acc + sizeFrom args := by
  induction args with
  | nil => intro acc; simp [sizeFrom]
  | cons a t ih => intro acc; simp only [List.foldl_cons, sizeFrom, ih]; omega

lemma c_arguments_size_eq (args : List (List Nat)) :
    c_arguments_size args = sizeFrom args := by
  rw [c_arguments_size, foldl_size]
  omega

lemma sizeFrom_of_wf {args : List (List Nat)} (h : wfArgs args) :
    sizeFrom args = (args.map (fun a => a.length + 1)).sum := by
  induction args with
  | nil => rfl
  | cons a t ih =>
    have ha : wfArg a := h a (by simp)
    have ht : wfArgs t := fun x hx => h x (by simp [hx])
    simp [sizeFrom, cstrlen_of_wf ha, ih ht]

lemma finalCursor_eq (args : List (List Nat)) : ∀ cur : Nat,
    finalCursor args cur = cur + sizeFrom args := by
  induction args with
  | nil => intro cur; simp [finalCursor, sizeFrom]
  | cons a t ih => intro cur; simp only [finalCursor, sizeFrom, ih]; omega

/-! ### The copy pass in closed form -/

lemma memcpy_append (pre src rest suf : List Nat) (h : src.length ≤ rest.length) :
    memcpy (pre ++ (rest ++ suf)) pre.length src
      = pre ++ (src ++ (rest.drop src.length ++ suf)) := by
  rw [memcpy, List.take_left, List.drop_append, List.drop_append_of_le_length h,
    List.append_assoc]

lemma set_append_cons (l₁ : List Nat) (x : Nat) (l₂ : List Nat) (v : Nat) :
    (l₁ ++ x :: l₂).set l₁.length v = l₁ ++ v :: l₂ := by
  induction l₁ with
  | nil => rfl
  | cons a t ih => simp [List.set_cons_succ, ih]

lemma copyLoop_closed : ∀ (args : List (List Nat)) (pre mid suf : List Nat),
    mid.length = sizeFrom args →
    copyLoop args (pre ++ (mid ++ suf)) pre.length
      = (pre ++ (argsFlat args ++ suf), offsets args pre.length) := by
  intro args
  induction args with
  | nil =>
    intro pre mid suf hm
    have hmid : mid = [] := List.length_eq_zero.mp (by simpa [sizeFrom] using hm)
    subst hmid
    simp [copyLoop, argsFlat, offsets]
  | cons a rest ih =>
    intro pre mid suf hm
    have hla : cstrlen a ≤ a.length := cstrlen_le a
    have hm1 : cstrlen a + 1 ≤ mid.length := by
      rw [hm, show sizeFrom (a :: rest) = (cstrlen a + 1) + sizeFrom rest from rfl]
      omega
    have hmlt : cstrlen a < mid.length := by omega
    obtain ⟨mid1, y, mid2, hmideq, hlen1⟩ :
        ∃ mid1 y mid2, mid = mid1 ++ y :: mid2 ∧ mid1.length = cstrlen a := by
      refine ⟨mid.take (cstrlen a), mid.get ⟨cstrlen a, hmlt⟩,
        mid.drop (cstrlen a + 1), ?_, ?_⟩
      · conv_lhs => rw [← List.take_append_drop (cstrlen a) mid]
        rw [List.drop_eq_getElem_cons hmlt]
        rfl
      · rw [List.length_take]; omega
    subst hmideq
    have hlen2 : mid2.length = sizeFrom rest := by
      have := hm
      rw [List.length_append, List.length_cons, hlen1,
        show sizeFrom (a :: rest) = (cstrlen a + 1) + sizeFrom rest from rfl] at this
      omega
    have htlen : (a.take (cstrlen a)).length = cstrlen a := by
      rw [List.length_take]; omega
    have hbuf2 :
        setByte (memcpy (pre ++ ((mid1 ++ y :: mid2) ++ suf)) pre.length
            (a.take (cstrlen a))) (pre.length + cstrlen a) 0
          = (pre ++ slot a) ++ (mid2 ++ suf) := by
      have hdrop : (mid1 ++ y :: mid2).drop (cstrlen a) = y :: mid2 := by
        rw [← hlen1]; exact List.drop_left mid1 (y :: mid2)
      rw [memcpy_append pre _ (mid1 ++ y :: mid2) suf
          (by rw [htlen, List.length_append, List.length_cons]; omega),
        htlen, hdrop]
      have hshape :
          pre ++ (a.take (cstrlen a) ++ ((y :: mid2) ++ suf))
            = (pre ++ a.take (cstrlen a)) ++ (y :: (mid2 ++ suf)) := by
        simp [List.append_assoc]
      have hl1 : pre.length + cstrlen a = (pre ++ a.take (cstrlen a)).length := by
        simp [List.length_append, htlen]
      rw [hshape, setByte, hl1, set_append_cons]
      simp [slot, List.append_assoc]
    have hpre' : (pre ++ slot a).length = pre.length + (cstrlen a + 1) := by
      simp [List.length_append, slot_length]
    have hih := ih (pre ++ slot a) mid2 suf hlen2
    rw [hpre'] at hih
    simp only [copyLoop]
    rw [hbuf2, show pre.length + cstrlen a + 1 = pre.length + (cstrlen a + 1) from by omega,
      hih]
    simp [argsFlat_cons, offsets, List.append_assoc]

lemma marshal_eq (args : List (List Nat)) :
    marshal args = (argsFlat args, offsets args 0) := by
  have h := copyLoop_closed args [] (List.replicate (c_arguments_size args) 0) []
    (by simp [List.length_replicate, c_arguments_size_eq])
  simpa [marshal, args_buffer] using h

/-! ### Reading the packed buffer back -/

lemma takeWhile_append_zero {a : List Nat} (h : wfArg a) (tail : List Nat) :
    (a ++ 0 :: tail).takeWhile (fun b => b != 0) = a := by
  rw [List.takeWhile_append, takeWhile_eq_self_of_wf h]
  simp [List.takeWhile]

lemma map_read_offsets : ∀ (args : List (List Nat)), wfArgs args → ∀ pre : List Nat,
    (offsets args pre.length).map (readCString (pre ++ argsFlat args)) = args := by
  intro args
  induction args with
  | nil => intro _ pre; simp [offsets, argsFlat]
  | cons a rest ih =>
    intro h pre
    have ha : wfArg a := h a (by simp)
    have hrest : wfArgs rest := fun x hx => h x (by simp [hx])
    have hhead : readCString (pre ++ argsFlat (a :: rest)) pre.length = a := by
      rw [readCString, List.drop_left, argsFlat_cons, slot_of_wf ha,
        List.append_assoc, List.singleton_append]
      exact takeWhile_append_zero ha (argsFlat rest)
    have hx : pre ++ argsFlat (a :: rest) = (pre ++ slot a) ++ argsFlat rest := by
      simp [argsFlat_cons, List.append_assoc]
    have hcur : pre.length + (cstrlen a + 1) = (pre ++ slot a).length := by
      simp [List.length_append, slot_length]
    simp only [offsets, List.map_cons, hhead]
    congr 1
    rw [hx, hcur]
    exact ih hrest (pre ++ slot a)

lemma marshal_readback (args : List (List Nat)) (h : wfArgs args) :
    (marshal args).2.map (readCString (marshal args).1) = args := by
  rw [marshal_eq]
  simpa using map_read_offsets args h []

lemma offsets_length (args : List (List Nat)) : ∀ cur : Nat,
    (offsets args cur).length = args.length := by
  induction args with
  | nil => intro _; rfl
  | cons a t ih => intro cur; simp [offsets, ih]

lemma offsets_getElem? (args : List (List Nat)) : ∀ cur i : Nat, i < args.length →
    (offsets args cur)[i]? = some (cur + sizeFrom (args.take i)) := by
  induction args with
  | nil => intro cur i hi; simp at hi
  | cons a t ih =>
    intro cur i hi
    cases i with
    | zero => simp [offsets, sizeFrom]
    | succ n =>
      have hn : n < t.length := by simpa using hi
      simp only [offsets, List.getElem?_cons_succ]
      rw [ih (cur + (cstrlen a + 1)) n hn]
      congr 1
      rw [List.take_succ_cons,
        show sizeFrom (a :: t.take n) = (cstrlen a + 1) + sizeFrom (t.take n) from rfl]
      omega

lemma offsets_getD (args : List (List Nat)) (cur i : Nat) (hi : i < args.length) :
    (offsets args cur).getD i 0 = cur + sizeFrom (args.take i) := by
  rw [List.getD_eq_getElem?_getD, offsets_getElem? args cur i hi]
  rfl

lemma getD_eq_get (args : List (List Nat)) (i : Nat) (hi : i < args.length) :
    args.getD i [] = args.get ⟨i, hi⟩ := by
  rw [List.getD_eq_getElem?_getD, List.getElem?_eq_getElem hi]
  rfl

lemma argsFlat_drop (args : List (List Nat)) : ∀ i : Nat,
    (argsFlat args).drop (sizeFrom (args.take i)) = argsFlat (args.drop i) := by
  induction args with
  | nil => intro i; simp [argsFlat]
  | cons a t ih =>
    intro i
    cases i with
    | zero => simp [sizeFrom]
    | succ n =>
      rw [List.take_succ_cons, List.drop_succ_cons,
        show sizeFrom (a :: t.take n) = (cstrlen a + 1) + sizeFrom (t.take n) from rfl,
        argsFlat_cons,
        show (cstrlen a + 1) + sizeFrom (t.take n)
          = (slot a).length + sizeFrom (t.take n) from by rw [slot_length],
        List.drop_append]
      exact ih n

lemma drop_getD_cons (args : List (List Nat)) (i : Nat) (hi : i < args.length) :
    args.drop i = args.getD i [] :: args.drop (i + 1) := by
  rw [List.drop_eq_getElem_cons hi, getD_eq_get args i hi]
  rfl

lemma read_at_offset (args : List (List Nat)) (h : wfArgs args) (i : Nat)
    (hi : i < args.length) :
    readCString (argsFlat args) (sizeFrom (args.take i)) = args.getD i [] := by
  have hmem : args.getD i [] ∈ args := by
    rw [getD_eq_get args i hi]
    exact List.get_mem args i hi
  rw [readCString, argsFlat_drop args i, drop_getD_cons args i hi, argsFlat_cons,
    slot_of_wf (h _ hmem), List.append_assoc, List.singleton_append]
  exact takeWhile_append_zero (h _ hmem) (argsFlat (args.drop (i + 1)))

/-! ### Offset arithmetic -/

lemma take_succ_getD (args : List (List Nat)) (i : Nat) (hi : i < args.length) :
    args.take (i + 1) = args.take i ++ [args.getD i []] := by
  rw [List.take_succ, List.getElem?_eq_getElem hi, getD_eq_get args i hi]
  rfl

lemma sizeFrom_take_succ (args : List (List Nat)) (i : Nat) (hi : i < args.length) :
    sizeFrom (args.take (i + 1))
      = sizeFrom (args.take i) + (cstrlen (args.getD i []) + 1) := by
  rw [take_succ_getD args i hi, sizeFrom_append,
    show sizeFrom [args.getD i []] = (cstrlen (args.getD i []) + 1) + 0 from rfl]

lemma sizeFrom_take_le (args : List (List Nat)) (i j : Nat) (hij : i ≤ j) :
    sizeFrom (args.take i) ≤ sizeFrom (args.take j) := by
  have h1 : args.take i = (args.take j).take i := by
    rw [List.take_take]
    congr 1
    omega
  rw [h1]
  conv_rhs => rw [← List.take_append_drop i (args.take j)]
  rw [sizeFrom_append]
  omega

lemma marshal_off (args : List (List Nat)) (i : Nat) (hi : i < args.length) :
    (marshal args).2.getD i 0 = sizeFrom (args.take i) := by
  rw [marshal_eq]
  show (offsets args 0).getD i 0 = _
  rw [offsets_getD args 0 i hi]
  omega

lemma sizeFrom_take_all (args : List (List Nat)) :
    sizeFrom (args.take args.length) = sizeFrom args := by
  rw [List.take_length]

/-! ### The oracle loops agree with the pure loops on a converting array -/

lemma sizeGo_convOf (full : List (List Nat)) :
    ∀ (rest : List (List Nat)) (s acc : Nat), full.drop s = rest →
    sizeGo (convOf full) (List.range' s rest.length) acc
      = some (rest.foldl (fun acc a => acc + (cstrlen a + 1)) acc) := by
  intro rest
  induction rest with
  | nil => intro s acc _; rfl
  | cons a t ih =>
    intro s acc hdrop
    have hs : full[s]? = some a := by
      have h0 : (full.drop s)[0]? = some a := by
        rw [hdrop]; exact List.getElem?_cons_zero
      rwa [List.getElem?_drop, Nat.add_zero] at h0
    have hnext : full.drop (s + 1) = t := by
      have h1 : (full.drop s).drop 1 = t := by rw [hdrop]; rfl
      rwa [List.drop_drop] at h1
    rw [List.length_cons, List.range'_succ]
    simp only [sizeGo, convOf, hs, List.foldl_cons]
    exact ih (s + 1) (acc + (cstrlen a + 1)) hnext

lemma sizeGo_range (args : List (List Nat)) :
    sizeGo (convOf args) (List.range args.length) 0 = some (c_arguments_size args) := by
  have h := sizeGo_convOf args args 0 0 rfl
  rw [List.range_eq_range']
  exact h

lemma copyGo_convOf (full : List (List Nat)) :
    ∀ (rest : List (List Nat)) (s : Nat) (buf : List Nat) (cur : Nat),
    full.drop s = rest →
    copyGo (convOf full) (List.range' s rest.length) buf cur
      = some (copyLoop rest buf cur) := by
  intro rest
  induction rest with
  | nil => intro s buf cur _; rfl
  | cons a t ih =>
    intro s buf cur hdrop
    have hs : full[s]? = some a := by
      have h0 : (full.drop s)[0]? = some a := by
        rw [hdrop]; exact List.getElem?_cons_zero
      rwa [List.getElem?_drop, Nat.add_zero] at h0
    have hnext : full.drop (s + 1) = t := by
      have h1 : (full.drop s).drop 1 = t := by rw [hdrop]; rfl
      rwa [List.drop_drop] at h1
    rw [List.length_cons, List.range'_succ]
    simp only [copyGo, convOf, hs]
    rw [ih (s + 1) _ _ hnext]
    simp only [copyLoop]

lemma copyGo_range (args : List (List Nat)) (buf : List Nat) (cur : Nat) :
    copyGo (convOf args) (List.range args.length) buf cur
      = some (copyLoop args buf cur) := by
  have h := copyGo_convOf args args 0 buf cur rfl
  rw [List.range_eq_range']
  exact h

/-! ### The oracle loops query only the listed indices -/

lemma sizeGo_congr (conv1 conv2 : Nat → Option (List Nat)) :
    ∀ (is : List Nat) (acc : Nat), (∀ i ∈ is, conv1 i = conv2 i) →
    sizeGo conv1 is acc = sizeGo conv2 is acc := by
  intro is
  induction is with
  | nil => intro acc _; rfl
  | cons i t ih =>
    intro acc h
    simp only [sizeGo]
    rw [h i (by simp)]
    cases conv2 i with
    | none => rfl
    | some a => exact ih _ (fun j hj => h j (by simp [hj]))

lemma copyGo_congr (conv1 conv2 : Nat → Option (List Nat)) :
    ∀ (is : List Nat) (buf : List Nat) (cur : Nat),
    (∀ i ∈ is, conv1 i = conv2 i) →
    copyGo conv1 is buf cur = copyGo conv2 is buf cur := by
  intro is
  induction is with
  | nil => intro buf cur _; rfl
  | cons i t ih =>
    intro buf cur h
    simp only [copyGo]
    rw [h i (by simp)]
    cases conv2 i with
    | none => rfl
    | some a =>
      have hrec := ih (setByte (memcpy buf cur (a.take (cstrlen a))) (cur + cstrlen a) 0)
        (cur + cstrlen a + 1) (fun j hj => h j (by simp [hj]))
      exact congrArg (fun x : Option (List Nat × List Nat) =>
        match x with
        | none => none
        | some r => some (r.1, cur :: r.2)) hrec

lemma marshal_fst (args : List (List Nat)) : (marshal args).1 = argsFlat args := by
  rw [marshal_eq]

/-! ## The claims -/

/-- C1: round-trip — for every argument sequence of well-formed strings and
every index `i` below the count, reading the null-terminated byte string
starting at entry `i` of the index vector built by the copy pass reproduces
exactly the byte sequence of the `i`-th original argument. -/
theorem roundTrip_argv (args : List (List Nat)) (h : wfArgs args) (i : Nat)
    (hi : i < args.length) :
    readCString (marshal args).1 ((marshal args).2.getD i 0) = args.getD i [] := by
  rw [marshal_fst, marshal_off args i hi]
  exact read_at_offset args h i hi

theorem roundTrip_argv_witness :
    readCString (marshal [[110, 111, 100, 101], [45, 45]]).1
        ((marshal [[110, 111, 100, 101], [45, 45]]).2.getD 1 0) = [45, 45] :=
  roundTrip_argv [[110, 111, 100, 101], [45, 45]] (by decide) 1 (by decide)

/-- C2: for every sequence of well-formed strings (whose total size fits the
`int` accumulator, so the size loop cannot overflow), the computed packed
buffer size equals exactly `Σ (length_i + 1)` and the index vector has
exactly `N` entries. -/
theorem packedSize_indexCount (args : List (List Nat)) (h : wfArgs args)
    (hfit : (args.map (fun a => a.length + 1)).sum < 2 ^ 31) :
    c_arguments_size args = (args.map (fun a => a.length + 1)).sum
    ∧ (marshal args).2.length = args.length := by
  constructor
  · rw [c_arguments_size_eq, sizeFrom_of_wf h]
  · rw [marshal_eq]
    show (offsets args 0).length = args.length
    exact offsets_length args 0

theorem packedSize_indexCount_witness :
    c_arguments_size [[110, 111, 100, 101],
        [45, 45, 118, 101, 114, 115, 105, 111, 110]]
      = ([[110, 111, 100, 101],
          [45, 45, 118, 101, 114, 115, 105, 111, 110]].map
          (fun a => a.length + 1)).sum
    ∧ (marshal [[110, 111, 100, 101],
        [45, 45, 118, 101, 114, 115, 105, 111, 110]]).2.length
      = [[110, 111, 100, 101],
          [45, 45, 118, 101, 114, 115, 105, 111, 110]].length :=
  packedSize_indexCount _ (by decide) (by decide)

/-- C3: slot layout — after the copy pass the closed byte ranges of two
distinct slots (string bytes plus terminator) are disjoint, every slot is
null-terminated at offset `length_i` past its start, and entry `i` of the
index vector points exactly at the first byte of the `i`-th string's copy
(the `length_i` bytes there are that string's bytes). -/
theorem slotLayout_disjoint (args : List (List Nat)) (h : wfArgs args)
    (i j : Nat) (hi : i < args.length) (hj : j < args.length) (hij : i ≠ j) :
    ((marshal args).2.getD i 0 + (args.getD i []).length < (marshal args).2.getD j 0
      ∨ (marshal args).2.getD j 0 + (args.getD j []).length < (marshal args).2.getD i 0)
    ∧ (marshal args).1[(marshal args).2.getD i 0 + (args.getD i []).length]? = some 0
    ∧ ((marshal args).1.drop ((marshal args).2.getD i 0)).take (args.getD i []).length
      = args.getD i [] := by
  have hwf : ∀ k, k < args.length → wfArg (args.getD k []) := by
    intro k hk
    have hmem : args.getD k [] ∈ args := by
      rw [getD_eq_get args k hk]
      exact List.get_mem args k hk
    exact h _ hmem
  have hlen : ∀ k, k < args.length → (args.getD k []).length = cstrlen (args.getD k []) :=
    fun k hk => (cstrlen_of_wf (hwf k hk)).symm
  have key : ∀ p q : Nat, p < q → q < args.length →
      (marshal args).2.getD p 0 + (args.getD p []).length < (marshal args).2.getD q 0 := by
    intro p q hpq hq
    have hp : p < args.length := lt_trans hpq hq
    rw [marshal_off args p hp, marshal_off args q hq, hlen p hp]
    have hstep := sizeFrom_take_succ args p hp
    have hle := sizeFrom_take_le args (p + 1) q hpq
    omega
  refine ⟨?_, ?_, ?_⟩
  · rcases Nat.lt_or_ge i j with hlt | hge
    · exact Or.inl (key i j hlt hj)
    · exact Or.inr (key j i (lt_of_le_of_ne hge (Ne.symm hij)) hi)
  · rw [marshal_fst, marshal_off args i hi, hlen i hi, ← List.getElem?_drop,
      argsFlat_drop args i, drop_getD_cons args i hi, argsFlat_cons,
      slot_of_wf (hwf i hi), ← hlen i hi, List.append_assoc, List.singleton_append,
      List.getElem?_append_right (le_refl (args.getD i []).length)]
    simp
  · rw [marshal_fst, marshal_off args i hi, argsFlat_drop args i,
      drop_getD_cons args i hi, argsFlat_cons, slot_of_wf (hwf i hi),
      List.append_assoc, List.singleton_append]
    exact List.take_left (args.getD i []) _

theorem slotLayout_disjoint_witness :
    ((marshal [[110], [97, 98]]).2.getD 0 0 + ([110] : List Nat).length
        < (marshal [[110], [97, 98]]).2.getD 1 0
      ∨ (marshal [[110], [97, 98]]).2.getD 1 0 + ([97, 98] : List Nat).length
        < (marshal [[110], [97, 98]]).2.getD 0 0)
    ∧ (marshal [[110], [97, 98]]).1[(marshal [[110], [97, 98]]).2.getD 0 0
        + ([110] : List Nat).length]? = some 0
    ∧ ((marshal [[110], [97, 98]]).1.drop
        ((marshal [[110], [97, 98]]).2.getD 0 0)).take ([110] : List Nat).length
      = [110] :=
  slotLayout_disjoint [[110], [97, 98]] (by decide) 0 1 (by decide) (by decide)
    (by decide)

/-- C4: the claim says a failed or overflowing allocation aborts with an
AllocationError before the copy pass, without invoking the runtime.  The
code never tests the result of `calloc` (nor guards the `int` size
accumulation): when `calloc` returns null with one argument, the copy pass
dereferences the null buffer (undefined behaviour, modelled as `crash`)
instead of reporting any error, and with zero arguments the runtime entry
point is still invoked despite the failed allocation. -/
theorem allocFailure_unchecked (ns : Nat → List (List Nat) → Int) :
    run (convOf [[110, 111, 100, 101]]) false ns 1
      = (Outcome.crash, [Event.sized, Event.allocated])
    ∧ run (convOf []) false ns 0 = (Outcome.ok (ns 0 []), fullTrace) :=
  ⟨rfl, rfl⟩

/-- C5: the claim says a failed string conversion aborts the size pass with
a ConversionError before any allocation, without invoking the runtime.  The
code never tests the result of `GetStringUTFChars`: when conversion of the
second of two arguments fails, `strlen(nullptr)` is undefined behaviour
(modelled as `crash`) — indeed no allocation and no invocation happens, but
no ConversionError is reported either. -/
theorem conversionFailure_unchecked (ns : Nat → List (List Nat) → Int) :
    run (fun i => if i = 0 then some [110] else none) true ns 2
      = (Outcome.crash, ([] : List Event)) :=
  rfl

/-- C6: when invocation succeeds, the value returned by the routine is
exactly the value `node::Start` returns on the count and the marshalled
(round-tripped) argument strings, for every possible entry-point function —
no interpretation or modification by the marshaller. -/
theorem result_passthrough (ns : Nat → List (List Nat) → Int)
    (args : List (List Nat)) (h : wfArgs args) :
    run (convOf args) true ns args.length
      = (Outcome.ok (ns args.length args), fullTrace) := by
  have hcopy : copyLoop args (List.replicate (c_arguments_size args) 0) 0
      = marshal args := rfl
  unfold run
  rw [sizeGo_range args]
  show (match copyGo (convOf args) (List.range args.length)
      (List.replicate (c_arguments_size args) 0) 0 with
    | none => (Outcome.crash, [Event.sized, Event.allocated])
    | some r =>
      (Outcome.ok (ns args.length (r.2.map (readCString r.1))), fullTrace))
    = (Outcome.ok (ns args.length args), fullTrace)
  rw [copyGo_range args]
  show (Outcome.ok (ns args.length
      ((copyLoop args (List.replicate (c_arguments_size args) 0) 0).2.map
        (readCString (copyLoop args (List.replicate (c_arguments_size args) 0) 0).1))),
    fullTrace) = _
  rw [hcopy, marshal_readback args h]

theorem result_passthrough_witness :
    run (convOf [[110], [97]]) true (fun _c _argv => 42) 2
      = (Outcome.ok 42, fullTrace) :=
  result_passthrough (fun _c _argv => 42) [[110], [97]] (by decide)

/-- C7: cursor discipline — the final write cursor of the copy pass equals
exactly the size computed by the size pass (no drift), the packed buffer
keeps exactly that length (no overrun), each recorded offset advances by
exactly `length_i + 1` over the previous one, and every slot's writes
(string bytes and terminator) stay inside the allocated buffer. -/
theorem cursor_discipline (args : List (List Nat)) :
    finalCursor args 0 = c_arguments_size args
    ∧ (marshal args).1.length = c_arguments_size args
    ∧ (∀ i, i + 1 < args.length →
        (marshal args).2.getD (i + 1) 0
          = (marshal args).2.getD i 0 + (cstrlen (args.getD i []) + 1))
    ∧ (∀ i, i < args.length →
        (marshal args).2.getD i 0 + cstrlen (args.getD i []) + 1
          ≤ c_arguments_size args) := by
  refine ⟨?_, ?_, ?_, ?_⟩
  · rw [finalCursor_eq, c_arguments_size_eq]
    omega
  · rw [marshal_fst, argsFlat_length, c_arguments_size_eq]
  · intro i hi1
    have hi : i < args.length := by omega
    rw [marshal_off args (i + 1) hi1, marshal_off args i hi,
      sizeFrom_take_succ args i hi]
  · intro i hi
    rw [marshal_off args i hi, c_arguments_size_eq]
    have hstep := sizeFrom_take_succ args i hi
    have hle := sizeFrom_take_le args (i + 1) args.length (by omega)
    rw [sizeFrom_take_all] at hle
    omega

theorem cursor_discipline_witness :
    (marshal [[110], [97, 98]]).2.getD 1 0
        = (marshal [[110], [97, 98]]).2.getD 0 0 + (cstrlen [110] + 1)
    ∧ (marshal [[110], [97, 98]]).2.getD 1 0 + cstrlen [97, 98] + 1
        ≤ c_arguments_size [[110], [97, 98]]
    ∧ finalCursor [[110], [97, 98]] 0 = c_arguments_size [[110], [97, 98]] :=
  ⟨(cursor_discipline [[110], [97, 98]]).2.2.1 0 (by decide),
   (cursor_discipline [[110], [97, 98]]).2.2.2 1 (by decide),
   (cursor_discipline [[110], [97, 98]]).1⟩

/-- C8: the empty input is valid — for zero arguments the computed buffer
size is 0, the index vector is empty, and the runtime entry point is still
invoked with count 0 (whether or not `calloc` returned null for the
zero-byte request), its result being returned to the caller. -/
theorem emptyInput_valid (allocOk : Bool) (ns : Nat → List (List Nat) → Int) :
    c_arguments_size [] = 0 ∧ (marshal []).2 = []
    ∧ run (convOf []) allocOk ns 0 = (Outcome.ok (ns 0 []), fullTrace) := by
  refine ⟨rfl, rfl, ?_⟩
  cases allocOk with
  | true => rfl
  | false => rfl

/-- C9: phase ordering — in every execution the trace of completed phases
is a prefix of size pass → allocation → copy pass → invocation → release,
and whenever the runtime entry point was invoked, the buffer release follows
it (the trace is the complete one), regardless of the returned code. -/
theorem phase_ordering (conv : Nat → Option (List Nat)) (allocOk : Bool)
    (ns : Nat → List (List Nat) → Int) (n : Nat) :
    (run conv allocOk ns n).2 <+: fullTrace
    ∧ (Event.invoked ∈ (run conv allocOk ns n).2 →
        (run conv allocOk ns n).2 = fullTrace) := by
  have htr : (run conv allocOk ns n).2 = []
      ∨ (run conv allocOk ns n).2 = [Event.sized, Event.allocated]
      ∨ (run conv allocOk ns n).2 = fullTrace := by
    unfold run
    cases sizeGo conv (List.range n) 0 with
    | none => exact Or.inl rfl
    | some total =>
      simp only []
      cases allocOk with
      | false =>
        cases n with
        | zero => exact Or.inr (Or.inr rfl)
        | succ m => exact Or.inr (Or.inl rfl)
      | true =>
        simp only []
        cases copyGo conv (List.range n) (List.replicate total 0) 0 with
        | none => exact Or.inr (Or.inl rfl)
        | some r => exact Or.inr (Or.inr rfl)
  rcases htr with he | he | he <;> rw [he] <;> exact ⟨by decide, by decide⟩

theorem phase_ordering_witness :
    (run (convOf [[97]]) true (fun _c _argv => 7) 1).2 = fullTrace
    ∧ (run (convOf [[97]]) true (fun _c _argv => 7) 1).2 <+: fullTrace :=
  ⟨(phase_ordering (convOf [[97]]) true (fun _c _argv => 7) 1).2 (by decide),
   (phase_ordering (convOf [[97]]) true (fun _c _argv => 7) 1).1⟩

/-- C10: determinism — two executions whose argument strings convert to
identical byte sequences for every index below the count produce identical
copy-pass results (packed buffer and index vector) and identical run
results; no input other than the argument bytes influences the outcome. -/
theorem marshalling_deterministic (conv1 conv2 : Nat → Option (List Nat))
    (allocOk : Bool) (ns : Nat → List (List Nat) → Int) (n t : Nat)
    (h : ∀ i, i < n → conv1 i = conv2 i) :
    copyGo conv1 (List.range n) (List.replicate t 0) 0
      = copyGo conv2 (List.range n) (List.replicate t 0) 0
    ∧ run conv1 allocOk ns n = run conv2 allocOk ns n := by
  have hmem : ∀ i ∈ List.range n, conv1 i = conv2 i := fun i hi =>
    h i (List.mem_range.mp hi)
  refine ⟨copyGo_congr conv1 conv2 (List.range n) (List.replicate t 0) 0 hmem, ?_⟩
  unfold run
  rw [sizeGo_congr conv1 conv2 (List.range n) 0 hmem]
  cases sizeGo conv2 (List.range n) 0 with
  | none => rfl
  | some total =>
    simp only []
    rw [copyGo_congr conv1 conv2 (List.range n) (List.replicate total 0) 0 hmem]

theorem marshalling_deterministic_witness :
    copyGo (convOf [[97], [98]]) (List.range 2) (List.replicate 6 0) 0
      = copyGo (fun i => if i < 2 then convOf [[97], [98]] i else some [99])
          (List.range 2) (List.replicate 6 0) 0
    ∧ run (convOf [[97], [98]]) true (fun _c _argv => 3) 2
      = run (fun i => if i < 2 then convOf [[97], [98]] i else some [99]) true
          (fun _c _argv => 3) 2 :=
  marshalling_deterministic _ _ true (fun _c _argv => 3) 2 6 (by decide)

end NativeLib
